import Mathlib

/-!
# Verification of the thumbnail composition pipeline

A shallow embedding of `app/backend/services/pillow_utils.py` (class
`ThumbnailComposer`) and the relevant configuration defaults of
`app/backend/settings.py`.

Modelling conventions:

* Machine integers are `Nat`/`Int`; Python `int(x)` on a non-negative value is
  floor, rendered with `Nat` division; Python floor division `//` on possibly
  negative values is `Int.fdiv`.
* Python float comparisons between exact ratios are rendered with exact
  integer arithmetic multiplied through by the (positive) denominators:
  `w / h > 1280 / 720` becomes `720 * w > 1280 * h`, the tolerance test
  `abs (w / h - 1280 / 720) < 0.01` becomes
  `100 * natAbs (720 * w - 1280 * h) < 720 * h`, and the layout test
  `len(lines) * line_height * 1.2 <= max_height` becomes
  `6 * (len(lines) * line_height) <= 5 * max_height`.
* External collaborators are parameters: font measurement
  (`PIL textbbox`, via `_calculate_text_size`) is a function
  `ℕ → String → ℕ × ℕ` from font size and text to (width, height); font
  loadability (`_get_font`) is `ℕ → Bool`; the JPEG encoder
  (`Image.save(..., quality=q)`) is a function `ℤ → List ℕ` from quality to
  the encoded bytes.
* Images are represented by their dimensions; `PIL.Image.resize` raises
  `ValueError` when a requested dimension is zero (its C core checks
  `height and width must be > 0`), so dimension computations that can feed a
  zero into `resize` return `Option` with `none` for that failure.
  `PIL.Image.crop` always returns an image of exactly the requested box size
  (out-of-bounds areas are zero-filled), so cropping is total.
* Fallible paths are `Option`/`Except`.  Loops are structural recursions on an
  explicit fuel argument that is always chosen at least as large as the
  number of iterations the source loop can perform.
-/

/-! ## Configuration constants (`ThumbnailComposer.__init__`, `Settings`) -/

/-- `self.canvas_width = 1280`. -/
def canvas_width : ℕ := 1280

/-- `self.canvas_height = 720`. -/
def canvas_height : ℕ := 720

/-- `self.text_area_width = int(self.canvas_width * 0.45)` (= 576). -/
def text_area_width : ℕ := canvas_width * 45 / 100

/-- `self.text_margin_left = 40`. -/
def text_margin_left : ℕ := 40

/-- `self.text_margin_top = 60`. -/
def text_margin_top : ℕ := 60

/-- `self.logo_max_width = int(self.canvas_width * 0.18)` (= 230). -/
def logo_max_width : ℕ := canvas_width * 18 / 100

/-- `max_height = int(self.canvas_height * 0.15)` (= 108), from `_process_logo`. -/
def logo_max_height : ℕ := canvas_height * 15 / 100

/-- `self.logo_margin = 30`. -/
def logo_margin : ℕ := 30

/-- `text_area_height = self.canvas_height - (self.text_margin_top * 2)`
(= 600), from `compose_thumbnail`. -/
def text_area_height : ℕ := canvas_height - text_margin_top * 2

/-- `Settings.jpeg_quality_start` default. -/
def jpeg_quality_start : ℤ := 92

/-- `Settings.jpeg_quality_min` default. -/
def jpeg_quality_min : ℤ := 76

/-- `Settings.max_file_size_bytes` for the default `max_file_size_mb = 2`. -/
def max_file_size_bytes : ℕ := 2 * 1024 * 1024

/-! ## Python `str.split()` (whitespace splitting used by `_wrap_text_to_fit`) -/

/-- Accumulator pass of Python `str.split()`: splits on runs of whitespace and
drops empty pieces.  `acc` holds the chars of the current word, reversed. -/
def wordsAux : List Char → List Char → List String
  | [], acc => if acc = [] then [] else [String.mk acc.reverse]
  | c :: cs, acc =>
    if c.isWhitespace then
      if acc = [] then wordsAux cs [] else String.mk acc.reverse :: wordsAux cs []
    else wordsAux cs (c :: acc)

/-- Python `text.split()` (no separator argument): whitespace-delimited,
empty pieces discarded. -/
def pyWords (s : String) : List String := wordsAux s.data []

/-- Joining words with single spaces exactly the way `_wrap_text_to_fit`
accumulates `current_line`: the first word, then `line ++ " " ++ word`. -/
def joinSp : List String → String
  | [] => ""
  | h :: t => t.foldl (fun acc w => acc ++ " " ++ w) h

/-! ## `_wrap_text_to_fit` -/

/-- One iteration of the `for word in words` loop of `_wrap_text_to_fit`.
State is `(lines, current_line)`; `measure` is the width component of
`_calculate_text_size` at the font in use. -/
def wrap_step (measure : String → ℕ) (maxW : ℕ) (st : List String × String)
    (word : String) : List String × String :=
  let test := if st.2 = "" then word else st.2 ++ " " ++ word
  if measure test ≤ maxW then (st.1, test)
  else if st.2 = "" then (st.1 ++ [word], "")
  else (st.1 ++ [st.2], word)

/-- `_wrap_text_to_fit(text, font, max_width)`: greedy word wrap.  After the
loop, a non-empty `current_line` is flushed. -/
def wrap_text_to_fit (measure : String → ℕ) (text : String) (maxW : ℕ) :
    List String :=
  let st := (pyWords text).foldl (wrap_step measure maxW) ([], "")
  if st.2 = "" then st.1 else st.1 ++ [st.2]

/-- The same fold performed on lines as word lists instead of joined strings
(used to reason about `wrap_text_to_fit`; `wrapGroups_models_wrap` proves the
correspondence). -/
def wrapGStep (measure : String → ℕ) (maxW : ℕ)
    (st : List (List String) × List String) (word : String) :
    List (List String) × List String :=
  let test := joinSp (st.2 ++ [word])
  if measure test ≤ maxW then (st.1, st.2 ++ [word])
  else if st.2 = [] then (st.1 ++ [[word]], [])
  else (st.1 ++ [st.2], [word])

/-- Group-level image of `wrap_text_to_fit`: the lines as word lists. -/
def wrapGroups (measure : String → ℕ) (maxW : ℕ) (ws : List String) :
    List (List String) :=
  let st := ws.foldl (wrapGStep measure maxW) ([], [])
  if st.2 = [] then st.1 else st.1 ++ [st.2]

/-- Boundary property of consecutive wrapped lines: appending the first
word of the next line to the previous line would have exceeded the maximum
width (this is why the wrap closed the line). -/
def WR (measure : String → ℕ) (maxW : ℕ) (g g2 : List String) : Prop :=
  ∀ w ∈ g2.head?, maxW < measure (joinSp g ++ " " ++ w)

/-- Invariant of the group-level wrap fold (state `(gs, cur)`): every closed
multi-word line fits, the current multi-word line fits, consecutive closed
lines satisfy `WR`, the head of the current line did not fit on the last
closed line, an empty current line means the last closed line was a
force-placed oversized word, and every oversized word sits alone in its
line. -/
def WInv (measure : String → ℕ) (maxW : ℕ)
    (st : List (List String) × List String) : Prop :=
  (∀ g ∈ st.1, 2 ≤ g.length → measure (joinSp g) ≤ maxW) ∧
  (2 ≤ st.2.length → measure (joinSp st.2) ≤ maxW) ∧
  List.Chain' (WR measure maxW) st.1 ∧
  (∀ g ∈ st.1.getLast?, ∀ w ∈ st.2.head?,
    maxW < measure (joinSp g ++ " " ++ w)) ∧
  (st.2 = [] → ∀ g ∈ st.1.getLast?, ∃ v, g = [v] ∧ maxW < measure v) ∧
  (∀ w : String, maxW < measure w →
    (∀ g ∈ st.1, w ∈ g → g = [w]) ∧ (w ∈ st.2 → st.2 = [w]))

/-! ## `_find_optimal_font_size` -/

/-- The wrap produced at font size `s`:
`_wrap_text_to_fit(text, self._get_font(s), max_width)`. -/
def wrapAt (M : ℕ → String → ℕ × ℕ) (T : String) (W s : ℕ) : List String :=
  wrap_text_to_fit (fun t0 => (M s t0).1) T W

/-- Six times the stacked height at font size `s`:
`len(lines) * line_height` where
`line_height = self._calculate_text_size("Ay", font)[1]`, scaled by 6 so that
the Python feasibility test `len(lines) * line_height * 1.2 <= max_height`
is rendered exactly as `totalHeight6 ... s ≤ 5 * maxH`. -/
def totalHeight6 (M : ℕ → String → ℕ × ℕ) (T : String) (W s : ℕ) : ℕ :=
  6 * ((wrapAt M T W s).length * (M s "Ay").2)

/-- The `while min_size <= max_size` loop of `_find_optimal_font_size`.
`L` is font loadability (`_get_font` returning an object/None), `M` the text
measurement; state is `(lo, hi, best_font, best_lines, best_size)` where
`best_font : Option ℕ` models the Python font object (identified by its
size) or `None`.  `fuel` is structural; the interval shrinks every step, so
any `fuel > hi + 1 - lo` is enough. -/
def fitLoop (L : ℕ → Bool) (M : ℕ → String → ℕ × ℕ) (T : String)
    (W maxH : ℕ) :
    ℕ → ℕ → ℕ → Option ℕ → List String → ℕ → Option ℕ × List String × ℕ
  | 0, _, _, bf, bl, bs => (bf, bl, bs)
  | fuel + 1, lo, hi, bf, bl, bs =>
    if lo ≤ hi then
      let size := (lo + hi) / 2
      if L size then
        let lines := wrapAt M T W size
        if totalHeight6 M T W size ≤ 5 * maxH then
          fitLoop L M T W maxH fuel (size + 1) hi (some size) lines size
        else fitLoop L M T W maxH fuel lo (size - 1) bf bl bs
      else fitLoop L M T W maxH fuel lo (size - 1) bf bl bs
    else (bf, bl, bs)

/-- `_find_optimal_font_size(text, max_width, max_height)`: binary search
over `[20, 120]` starting from `best_font = None`, `best_lines = []`,
`best_size = min_size = 20`. -/
def find_optimal_font_size (L : ℕ → Bool) (M : ℕ → String → ℕ × ℕ)
    (T : String) (W maxH : ℕ) : Option ℕ × List String × ℕ :=
  fitLoop L M T W maxH 102 20 120 none [] 20

/-! ## `_resize_background_to_canvas` -/

/-- Trace of `_resize_background_to_canvas`: the intermediate scaled size,
the crop offsets (`left`/`top`, Python `//` so `Int.fdiv`), and the final
output size.  `PIL.crop` returns exactly the requested box, so the output is
always `canvas_width × canvas_height` when the scaling resize succeeds. -/
structure ResizeResult where
  scaledW : ℕ
  scaledH : ℕ
  cropLeft : ℤ
  cropTop : ℤ
  outW : ℕ
  outH : ℕ
deriving DecidableEq, Repr

/-- `_resize_background_to_canvas(background)` on an image of size
`bgW × bgH`.  `none` models an uncaught exception: `ZeroDivisionError` when
`bgH = 0`, or `ValueError` from `resize` when a computed scaled dimension is
zero.  The float ratio comparisons are rendered exactly (see header). -/
def resize_background_to_canvas (bgW bgH : ℕ) : Option ResizeResult :=
  if bgH = 0 then none
  else if 100 * ((canvas_height * bgW : ℤ) - canvas_width * bgH).natAbs <
      canvas_height * bgH then
    some ⟨canvas_width, canvas_height, 0, 0, canvas_width, canvas_height⟩
  else if canvas_height * bgW > canvas_width * bgH then
    let newH := canvas_height
    let newW := bgH * canvas_width / canvas_height
    if newW = 0 ∨ newH = 0 then none
    else
      let left := Int.fdiv ((newW : ℤ) - canvas_width) 2
      some ⟨newW, newH, left, 0, canvas_width, canvas_height⟩
  else
    let newW := canvas_width
    let newH := bgW * canvas_height / canvas_width
    if newW = 0 ∨ newH = 0 then none
    else
      let top := Int.fdiv ((newH : ℤ) - canvas_height) 2
      some ⟨newW, newH, 0, top, canvas_width, canvas_height⟩

/-! ## `_process_logo` -/

/-- The dimension computation of `_process_logo` on a decoded logo of size
`w × h`.  `none` models the `except` clause returning `None`: division by a
zero height, or `resize` rejecting a zero dimension. -/
def process_logo_dims (w h : ℕ) : Option (ℕ × ℕ) :=
  if h = 0 then none
  else
    let p :=
      if h < w then
        let newW := min logo_max_width w
        (newW, newW * h / w)
      else
        let newH := min logo_max_height h
        (newH * w / h, newH)
    if p.1 = 0 ∨ p.2 = 0 then none else some p

/-- `_process_logo(logo_data)`: the raw bytes are represented by their decode
result (`none` for undecodable bytes), after which the resize dimensions are
computed; any failure yields `None` to the caller. -/
def process_logo (decoded : Option (ℕ × ℕ)) : Option (ℕ × ℕ) :=
  match decoded with
  | none => none
  | some p => process_logo_dims p.1 p.2

/-! ## `_optimize_jpeg_size` -/

/-- The `while quality >= min_quality` loop of `_optimize_jpeg_size`.
`enc q` is the JPEG encoding of the canvas at quality `q`; `last` is the
`jpeg_data` variable from the previous iteration (`none` before the first,
in which case falling out of the loop is Python's `NameError`). -/
def optLoop (enc : ℤ → List ℕ) (maxB : ℕ) (minQ : ℤ) :
    ℕ → ℤ → Option (List ℕ) → Option (List ℕ)
  | 0, _, last => last
  | fuel + 1, q, last =>
    if minQ ≤ q then
      let d := enc q
      if d.length ≤ maxB then some d
      else optLoop enc maxB minQ fuel (q - 5) (some d)
    else last

/-- `_optimize_jpeg_size(image, max_size_bytes)` with starting quality
`startQ` and floor `minQ` (defaults 92 and 76).  Each iteration lowers the
quality by 5, so `(startQ - minQ).toNat + 2` units of fuel always suffice. -/
def optimize_jpeg_size (enc : ℤ → List ℕ) (maxB : ℕ) (startQ minQ : ℤ) :
    Option (List ℕ) :=
  optLoop enc maxB minQ ((startQ - minQ).toNat + 2) startQ none

/-! ## `compose_thumbnail` -/

/-- The observable result of `compose_thumbnail`: the normalized canvas
trace, the chosen layout, the derived text/accent/logo geometry, the
optimized JPEG bytes and the filename (`request_id` resolved to `stem`). -/
structure ComposeOutput where
  canvas : ResizeResult
  fontSize : ℕ
  lines : List String
  lineHeight : ℕ
  textStartY : ℤ
  barY : ℤ
  logo : Option (ℕ × ℕ × ℤ × ℤ)
  jpeg : List ℕ
  filename : String
deriving DecidableEq, Repr

/-- `compose_thumbnail(background_image, title, accent_color, logo_image,
request_id)`.  `enc`: JPEG encoder oracle; `bgW × bgH`: background size;
`L`/`M`: font loadability and measurement; `logoSrc`: `None`/falsy logo bytes
(`none`) or bytes decoding to `some dims` / failing to decode
(`some none`); `stem`: the resolved `request_id or timestamp` string.
Errors model the exceptions `compose_thumbnail` re-raises; logo failures are
absorbed (`logo := none`).  `line_height = int(font_size * 1.2)` is
`fontSize * 6 / 5`; the vertical centering `//` is `Int.fdiv`. -/
def compose_thumbnail (enc : ℤ → List ℕ) (startQ minQ : ℤ) (maxBytes : ℕ)
    (bgW bgH : ℕ) (L : ℕ → Bool) (M : ℕ → String → ℕ × ℕ)
    (title : String) (logoSrc : Option (Option (ℕ × ℕ))) (stem : String) :
    Except String ComposeOutput :=
  match resize_background_to_canvas bgW bgH with
  | none => Except.error "height and width must be > 0"
  | some canvas =>
    match find_optimal_font_size L M title text_area_width text_area_height with
    | (none, _, _) => Except.error "Could not fit text in available space"
    | (some _, tlines, fsize) =>
      if tlines = [] then Except.error "Could not fit text in available space"
      else
        let lineH := fsize * 6 / 5
        let totalTextH := tlines.length * lineH
        let startY : ℤ :=
          (text_margin_top : ℤ) +
            Int.fdiv ((text_area_height : ℤ) - totalTextH) 2
        let barY : ℤ := startY - 25
        let logoPlaced : Option (ℕ × ℕ × ℤ × ℤ) :=
          match logoSrc with
          | none => none
          | some decoded =>
            match process_logo decoded with
            | none => none
            | some (lw, lh) =>
              some (lw, lh, (canvas_width : ℤ) - lw - logo_margin,
                (canvas_height : ℤ) - lh - logo_margin)
        match optimize_jpeg_size enc maxBytes startQ minQ with
        | none => Except.error "jpeg_data referenced before assignment"
        | some jpeg =>
          Except.ok ⟨canvas, fsize, tlines, lineH, startY, barY, logoPlaced,
            jpeg, stem ++ "_thumbnail.jpg"⟩

/-! ## Concrete oracle instances used for counterexamples and witnesses -/

/-- A JPEG-encoder oracle whose sizes are non-increasing as quality
decreases (as the spec assumes): 100 bytes at qualities above 76, 10 bytes
at 76 and below.  A byte budget of 50 then falls strictly between the
quality-76 and quality-77 sizes. -/
def encProbe : ℤ → List ℕ := fun q =>
  if q ≤ 76 then List.replicate 10 0 else List.replicate 100 0

/-- A measurement oracle with zero widths (everything wraps onto one line)
and constant line height 1000, so even font size 20 overflows the 600-pixel
text area: `6 * 1000 > 5 * 600`. -/
def measureFlat : ℕ → String → ℕ × ℕ := fun _ _ => (0, 1000)

/-- A measurement oracle with zero widths whose line height is 1 at font
sizes 44 and 100 and 1000 elsewhere: feasibility is not monotone in the font
size, and the binary search of `_find_optimal_font_size` never probes 100. -/
def measureSpiky : ℕ → String → ℕ × ℕ := fun s _ =>
  (0, if s = 44 ∨ s = 100 then 1 else 1000)

/-! ## Helper lemmas -/

theorem optLoop_step (enc : ℤ → List ℕ) (maxB : ℕ) (minQ : ℤ) (fuel : ℕ)
    (q : ℤ) (last : Option (List ℕ)) (h : minQ ≤ q) :
    optLoop enc maxB minQ (fuel + 1) q last =
      if (enc q).length ≤ maxB then some (enc q)
      else optLoop enc maxB minQ fuel (q - 5) (some (enc q)) := by
  simp [optLoop, h]

theorem optLoop_stop (enc : ℤ → List ℕ) (maxB : ℕ) (minQ : ℤ) (fuel : ℕ)
    (q : ℤ) (last : Option (List ℕ)) (h : ¬ minQ ≤ q) :
    optLoop enc maxB minQ (fuel + 1) q last = last := by
  simp [optLoop, h]

/-- Claim C2 (amended): with the default settings (start 92, floor 76,
step 5) the size-bounded encoder probes exactly the qualities 92, 87, 82 and
77 — the floor quality 76 is never probed because 92 is not congruent to 76
modulo 5 — and returns the first probed encoding whose size is within
`maxBytes`; if none is, it returns the quality-77 encoding (not the
quality-76 one). -/
theorem c2_optimize_first_fit (enc : ℤ → List ℕ) (maxB : ℕ) :
    optimize_jpeg_size enc maxB jpeg_quality_start jpeg_quality_min =
      some (if (enc 92).length ≤ maxB then enc 92
        else if (enc 87).length ≤ maxB then enc 87
        else if (enc 82).length ≤ maxB then enc 82
        else enc 77) := by
  have e0 : optimize_jpeg_size enc maxB jpeg_quality_start jpeg_quality_min =
      optLoop enc maxB 76 (17 + 1) 92 none := rfl
  rw [e0, optLoop_step enc maxB 76 17 92 none (by norm_num)]
  by_cases h1 : (enc 92).length ≤ maxB
  · rw [if_pos h1, if_pos h1]
  · rw [if_neg h1, if_neg h1]
    have s1 : (92 : ℤ) - 5 = 87 := by norm_num
    rw [s1]
    have e1 : (17 : ℕ) = 16 + 1 := rfl
    rw [e1, optLoop_step enc maxB 76 16 87 (some (enc 92)) (by norm_num)]
    by_cases h2 : (enc 87).length ≤ maxB
    · rw [if_pos h2, if_pos h2]
    · rw [if_neg h2, if_neg h2]
      have s2 : (87 : ℤ) - 5 = 82 := by norm_num
      rw [s2]
      have e2 : (16 : ℕ) = 15 + 1 := rfl
      rw [e2, optLoop_step enc maxB 76 15 82 (some (enc 87)) (by norm_num)]
      by_cases h3 : (enc 82).length ≤ maxB
      · rw [if_pos h3, if_pos h3]
      · rw [if_neg h3, if_neg h3]
        have s3 : (82 : ℤ) - 5 = 77 := by norm_num
        rw [s3]
        have e3 : (15 : ℕ) = 14 + 1 := rfl
        rw [e3, optLoop_step enc maxB 76 14 77 (some (enc 82)) (by norm_num)]
        by_cases h4 : (enc 77).length ≤ maxB
        · rw [if_pos h4]
        · rw [if_neg h4]
          have s4 : (77 : ℤ) - 5 = 72 := by norm_num
          rw [s4]
          have e4 : (14 : ℕ) = 13 + 1 := rfl
          rw [e4, optLoop_stop enc maxB 76 13 72 (some (enc 77)) (by norm_num)]

set_option maxRecDepth 10000 in
/-- For any background at least 2 pixels wide and 1 pixel tall, the
normalizer succeeds and the crop output is exactly the canvas size. -/
theorem resize_ok (w h : ℕ) (hw : 2 ≤ w) (hh : 1 ≤ h) :
    ∃ r, resize_background_to_canvas w h = some r ∧
      r.outW = canvas_width ∧ r.outH = canvas_height := by
  have hh0 : h ≠ 0 := by omega
  have hW : 0 < h * canvas_width / canvas_height := by
    apply Nat.div_pos
    · calc canvas_height ≤ 1 * canvas_width := by norm_num [canvas_width, canvas_height]
      _ ≤ h * canvas_width := Nat.mul_le_mul_right _ hh
    · norm_num [canvas_height]
  have hH : 0 < w * canvas_height / canvas_width := by
    apply Nat.div_pos
    · calc canvas_width ≤ 2 * canvas_height := by norm_num [canvas_width, canvas_height]
      _ ≤ w * canvas_height := Nat.mul_le_mul_right _ hw
    · norm_num [canvas_width]
  simp only [resize_background_to_canvas, if_neg hh0]
  split_ifs with htol hwider hz1 hz2
  · exact ⟨_, rfl, rfl, rfl⟩
  · exfalso
    rcases hz1 with hz1 | hz1
    · omega
    · exact absurd hz1 (by norm_num [canvas_height])
  · exact ⟨_, rfl, rfl, rfl⟩
  · exfalso
    rcases hz2 with hz2 | hz2
    · exact absurd hz2 (by norm_num [canvas_width])
    · omega
  · exact ⟨_, rfl, rfl, rfl⟩

/-- Floor division error bound, in ℚ: the natural-number quotient `a / b` is
within 1 of the exact quotient.  Packaged for the two aspect-ratio
conclusions of C7. -/
theorem nat_div_close (a b : ℕ) (hb : 0 < b) :
    |((a / b : ℕ) : ℚ) - (a : ℚ) / b| < 1 := by
  have hr : a % b < b := Nat.mod_lt a hb
  have hbq : (b : ℚ) ≠ 0 := by positivity
  have h2 : (a : ℚ) = (b : ℚ) * ((a / b : ℕ) : ℚ) + ((a % b : ℕ) : ℚ) := by
    exact_mod_cast (Nat.div_add_mod a b).symm
  have key : (a : ℚ) / b - ((a / b : ℕ) : ℚ) = ((a % b : ℕ) : ℚ) / b := by
    rw [h2, add_div, mul_comm, mul_div_assoc, div_self hbq, mul_one]
    ring
  rw [abs_sub_comm, key, abs_of_nonneg (by positivity)]
  rw [div_lt_one (by positivity)]
  exact_mod_cast hr

/-- Claim C2 (counterexample to the claim as stated): for the size-monotone
encoder `encProbe` and budget 50, quality 76 lies in `[floor, start]` and
meets the budget, yet the returned encoding is the quality-77 one, which
exceeds the budget and differs from the floor-quality encoding. -/
theorem c2_size_bound_counterexample :
    (∀ q q2 : ℤ, q ≤ q2 → (encProbe q).length ≤ (encProbe q2).length) ∧
    ((76 : ℤ) ≤ 76 ∧ (76 : ℤ) ≤ 92 ∧ (encProbe 76).length ≤ 50) ∧
    optimize_jpeg_size encProbe 50 jpeg_quality_start jpeg_quality_min =
      some (List.replicate 100 0) ∧
    50 < (List.replicate 100 (0 : ℕ)).length ∧
    List.replicate 100 (0 : ℕ) ≠ encProbe 76 := by
  refine ⟨?_, ⟨by norm_num, by norm_num, by decide⟩, by decide, by decide, by decide⟩
  intro q q2 h
  unfold encProbe
  split_ifs with a b
  · exact le_refl _
  · simp
  · omega
  · exact le_refl _

/-- Claim C3 (code bug): on a 3000×500 background (wider than 16:9) the code
scales to `int(bg_height * target_ratio) = 888` pixels wide instead of the
aspect-preserving `int(bg_width * canvas_height / bg_height) = 4320`; the
scaled image is even narrower than the canvas, so the crop pads 196 black
columns on each side instead of center-cropping excess width, contradicting
the function's own docstring (cover the canvas, crop the excess). -/
theorem c3_resize_not_aspect_preserving :
    resize_background_to_canvas 3000 500 =
      some ⟨888, 720, -196, 0, 1280, 720⟩ ∧
    3000 * canvas_height / 500 = 4320 ∧
    (888 : ℕ) ≠ 4320 ∧
    888 < canvas_width := by
  exact ⟨by decide, by decide, by decide, by decide⟩

/-- Claim C4 (counterexample to the claim as stated): a decodable 1×1 source
has positive dimensions, but the normalizer computes the intermediate height
`int(bg_width / target_ratio) = 0` and `PIL.Image.resize` raises
`ValueError` on a zero dimension, so no 1280×720 canvas is produced. -/
theorem c4_dims_counterexample :
    resize_background_to_canvas 1 1 = none := by decide

/-- Claim C4 (amended): for every source image at least 2 pixels wide (so
that both intermediate scaled dimensions are positive) and at least 1 pixel
tall, the normalizer succeeds and returns an image of exactly
`canvas_width × canvas_height` (1280 × 720). -/
theorem c4_output_dims (w h : ℕ) (hw : 2 ≤ w) (hh : 1 ≤ h) :
    ∃ r, resize_background_to_canvas w h = some r ∧
      r.outW = canvas_width ∧ r.outH = canvas_height :=
  resize_ok w h hw hh

/-- Witness for C4: the amended theorem applied to a 1024×1024 source. -/
theorem c4_output_dims_witness :
    (2 ≤ 1024 ∧ 1 ≤ 1024) ∧
    ∃ r, resize_background_to_canvas 1024 1024 = some r ∧
      r.outW = canvas_width ∧ r.outH = canvas_height :=
  ⟨⟨by norm_num, by norm_num⟩, c4_output_dims 1024 1024 (by norm_num) (by norm_num)⟩

/-- Claim C7: whenever `_process_logo` succeeds on a decoded `w × h` logo,
the output dimensions never exceed the original ones; the clamp applied is
`min logo_max_width w` on the width when `w > h` (landscape) and
`min logo_max_height h` on the height otherwise (portrait or square); and
the derived dimension matches the original aspect ratio to within 1 pixel of
rounding. -/
theorem c7_logo_resize (w h nw nh : ℕ)
    (hp : process_logo_dims w h = some (nw, nh)) :
    nw ≤ w ∧ nh ≤ h ∧
    (h < w → nw = min logo_max_width w) ∧
    (¬ h < w → nh = min logo_max_height h) ∧
    (h < w → |(nh : ℚ) - (nw : ℚ) * h / w| < 1) ∧
    (¬ h < w → |(nw : ℚ) - (nh : ℚ) * w / h| < 1) := by
  by_cases hh0 : h = 0
  · rw [process_logo_dims, if_pos hh0] at hp
    exact absurd hp (by simp)
  · have hhpos : 0 < h := Nat.pos_of_ne_zero hh0
    by_cases hlw : h < w
    · have hwpos : 0 < w := lt_trans hhpos hlw
      simp only [process_logo_dims, hh0, hlw, if_true, if_false,
        ite_true, ite_false] at hp
      split_ifs at hp with hz
      case _ =>
        have hpair := Option.some.inj hp
        have e1 : nw = min logo_max_width w := (congrArg Prod.fst hpair).symm
        have e2 : nh = min logo_max_width w * h / w := (congrArg Prod.snd hpair).symm
        subst e1
        subst e2
        refine ⟨min_le_right _ _, ?_, fun _ => rfl, fun hc => absurd hlw hc, ?_,
          fun hc => absurd hlw hc⟩
        · calc min logo_max_width w * h / w ≤ w * h / w :=
            Nat.div_le_div_right (Nat.mul_le_mul_right _ (min_le_right _ _))
          _ = h := Nat.mul_div_cancel_left h hwpos
        · intro _
          have hc := nat_div_close (min logo_max_width w * h) w hwpos
          have ecast : ((min logo_max_width w * h : ℕ) : ℚ) =
              ((min logo_max_width w : ℕ) : ℚ) * (h : ℚ) := by push_cast; ring
          rw [ecast] at hc
          exact hc
    · have hwle : w ≤ h := le_of_not_lt hlw
      simp only [process_logo_dims, hh0, hlw, if_true, if_false,
        ite_true, ite_false] at hp
      split_ifs at hp with hz
      case _ =>
        have hpair := Option.some.inj hp
        have e1 : nw = min logo_max_height h * w / h := (congrArg Prod.fst hpair).symm
        have e2 : nh = min logo_max_height h := (congrArg Prod.snd hpair).symm
        subst e1
        subst e2
        refine ⟨?_, min_le_right _ _, fun hc => absurd hc hlw, fun _ => rfl,
          fun hc => absurd hc hlw, ?_⟩
        · calc min logo_max_height h * w / h ≤ h * w / h :=
            Nat.div_le_div_right (Nat.mul_le_mul_right _ (min_le_right _ _))
          _ = w := Nat.mul_div_cancel_left w hhpos
        · intro _
          have hc := nat_div_close (min logo_max_height h * w) h hhpos
          have ecast : ((min logo_max_height h * w : ℕ) : ℚ) =
              ((min logo_max_height h : ℕ) : ℚ) * (w : ℚ) := by push_cast; ring
          rw [ecast] at hc
          exact hc

/-- Witness for C7: a 400×300 landscape logo is clamped to 230×172, and the
theorem's hypotheses hold there. -/
theorem c7_logo_resize_witness :
    process_logo_dims 400 300 = some (230, 172) ∧
    (230 ≤ 400 ∧ 172 ≤ 300 ∧
      (300 < 400 → 230 = min logo_max_width 400) ∧
      (¬ 300 < 400 → 172 = min logo_max_height 300) ∧
      (300 < 400 → |(172 : ℚ) - (230 : ℚ) * 300 / 400| < 1) ∧
      (¬ 300 < 400 → |(230 : ℚ) - (172 : ℚ) * 400 / 300| < 1)) :=
  ⟨by decide, c7_logo_resize 400 300 230 172 (by decide)⟩

/-- Claim C8: `_process_logo` returns `None` on a decode failure, and
whenever the logo step fails (decode failure or any processing failure),
`compose_thumbnail` behaves exactly as if no logo had been supplied — the
thumbnail is still produced, without the logo, and no error escapes the
logo path. -/
theorem c8_logo_graceful (enc : ℤ → List ℕ) (startQ minQ : ℤ)
    (maxBytes bgW bgH : ℕ) (L : ℕ → Bool) (M : ℕ → String → ℕ × ℕ)
    (title stem : String) :
    process_logo none = none ∧
    ∀ d : Option (ℕ × ℕ), process_logo d = none →
      compose_thumbnail enc startQ minQ maxBytes bgW bgH L M title (some d) stem =
        compose_thumbnail enc startQ minQ maxBytes bgW bgH L M title none stem := by
  refine ⟨rfl, ?_⟩
  intro d hd
  simp only [compose_thumbnail, hd]

/-- Witness for C8: a decoded 1000×1 logo makes the resize dimensions
degenerate (`new_height = 0`), `_process_logo` returns `None`, and
composition is unchanged. -/
theorem c8_logo_graceful_witness :
    process_logo (some (1000, 1)) = none ∧
    compose_thumbnail (fun _ => []) 92 76 100 1920 1080 (fun _ => true)
        (fun _ _ => (0, 1)) "Top 10 Python Tips" (some (some (1000, 1))) "req" =
      compose_thumbnail (fun _ => []) 92 76 100 1920 1080 (fun _ => true)
        (fun _ _ => (0, 1)) "Top 10 Python Tips" none "req" :=
  ⟨by decide,
    (c8_logo_graceful (fun _ => []) 92 76 100 1920 1080 (fun _ => true)
      (fun _ _ => (0, 1)) "Top 10 Python Tips" "req").2 (some (1000, 1)) (by decide)⟩

/-- If every size in the searchable range overflows, the binary search never
updates its best state: `_find_optimal_font_size` then returns the initial
`(None, [], 20)`. -/
theorem fitLoop_all_over (L : ℕ → Bool) (M : ℕ → String → ℕ × ℕ)
    (T : String) (W maxH : ℕ) (hload : ∀ s, L s = true)
    (hover : ∀ s, 20 ≤ s → s ≤ 120 → ¬ totalHeight6 M T W s ≤ 5 * maxH) :
    ∀ fuel lo hi (bf : Option ℕ) (bl : List String) (bs : ℕ), 20 ≤ lo → hi ≤ 120 →
      fitLoop L M T W maxH fuel lo hi bf bl bs = (bf, bl, bs) := by
  intro fuel
  induction fuel with
  | zero => intro lo hi bf bl bs _ _; rfl
  | succ n ih =>
    intro lo hi bf bl bs hlo hhi
    by_cases hle : lo ≤ hi
    · have hm1 : 20 ≤ (lo + hi) / 2 := by omega
      have hm2 : (lo + hi) / 2 ≤ 120 := by omega
      simp only [fitLoop, if_pos hle, hload ((lo + hi) / 2), if_true]
      rw [if_neg (hover ((lo + hi) / 2) hm1 hm2)]
      exact ih lo ((lo + hi) / 2 - 1) bf bl bs hlo (by omega)
    · simp only [fitLoop, if_neg hle]

/-- The best size recorded by the binary search never decreases: the final
size is at least the incoming best size (which never exceeds `lo`). -/
theorem fitLoop_ge_best (L : ℕ → Bool) (M : ℕ → String → ℕ × ℕ)
    (T : String) (W maxH : ℕ) :
    ∀ fuel lo hi (bf : Option ℕ) (bl : List String) (bs : ℕ), bs ≤ lo →
      bs ≤ (fitLoop L M T W maxH fuel lo hi bf bl bs).2.2 := by
  intro fuel
  induction fuel with
  | zero => intro lo hi bf bl bs _; exact le_refl bs
  | succ n ih =>
    intro lo hi bf bl bs hblo
    by_cases hle : lo ≤ hi
    · simp only [fitLoop, if_pos hle]
      by_cases hL : L ((lo + hi) / 2) = true
      · rw [if_pos hL]
        by_cases ht : totalHeight6 M T W ((lo + hi) / 2) ≤ 5 * maxH
        · rw [if_pos ht]
          calc bs ≤ (lo + hi) / 2 := by omega
          _ ≤ _ := ih ((lo + hi) / 2 + 1) hi (some ((lo + hi) / 2)) _
            ((lo + hi) / 2) (by omega)
        · rw [if_neg ht]
          exact ih lo ((lo + hi) / 2 - 1) bf bl bs hblo
      · rw [if_neg hL]
        exact ih lo ((lo + hi) / 2 - 1) bf bl bs hblo
    · simp only [fitLoop, if_neg hle]
      exact le_refl bs

/-- The size returned by the binary search never exceeds `max bs hi`: all
probed sizes lie below the current upper bound. -/
theorem fitLoop_le_max (L : ℕ → Bool) (M : ℕ → String → ℕ × ℕ)
    (T : String) (W maxH : ℕ) :
    ∀ fuel lo hi (bf : Option ℕ) (bl : List String) (bs : ℕ),
      (fitLoop L M T W maxH fuel lo hi bf bl bs).2.2 ≤ max bs hi := by
  intro fuel
  induction fuel with
  | zero => intro lo hi bf bl bs; exact le_max_left bs hi
  | succ n ih =>
    intro lo hi bf bl bs
    by_cases hle : lo ≤ hi
    · simp only [fitLoop, if_pos hle]
      by_cases hL : L ((lo + hi) / 2) = true
      · rw [if_pos hL]
        by_cases ht : totalHeight6 M T W ((lo + hi) / 2) ≤ 5 * maxH
        · rw [if_pos ht]
          calc (fitLoop L M T W maxH n ((lo + hi) / 2 + 1) hi
              (some ((lo + hi) / 2)) _ ((lo + hi) / 2)).2.2 ≤
              max ((lo + hi) / 2) hi := ih _ _ _ _ _
          _ ≤ max bs hi := by
            have : (lo + hi) / 2 ≤ hi := by omega
            exact max_le (le_trans this (le_max_right bs hi)) (le_max_right bs hi)
        · rw [if_neg ht]
          calc (fitLoop L M T W maxH n lo ((lo + hi) / 2 - 1) bf bl bs).2.2 ≤
              max bs ((lo + hi) / 2 - 1) := ih _ _ _ _ _
          _ ≤ max bs hi := max_le_max (le_refl bs) (by omega)
      · rw [if_neg hL]
        calc (fitLoop L M T W maxH n lo ((lo + hi) / 2 - 1) bf bl bs).2.2 ≤
            max bs ((lo + hi) / 2 - 1) := ih _ _ _ _ _
        _ ≤ max bs hi := max_le_max (le_refl bs) (by omega)
    · simp only [fitLoop, if_neg hle]
      exact le_max_left bs hi

/-- Two runs of the binary search over the same interval, with the second
given a larger height budget and a larger incoming best size, end with the
second size at least the first. -/
theorem fitLoop_mono (L : ℕ → Bool) (M : ℕ → String → ℕ × ℕ)
    (T : String) (W maxH1 maxH2 : ℕ) (h12 : maxH1 ≤ maxH2) :
    ∀ fuel lo hi (bf1 : Option ℕ) (bl1 : List String) (bs1 : ℕ)
      (bf2 : Option ℕ) (bl2 : List String) (bs2 : ℕ), bs1 ≤ bs2 → bs1 ≤ lo →
      (fitLoop L M T W maxH1 fuel lo hi bf1 bl1 bs1).2.2 ≤
        (fitLoop L M T W maxH2 fuel lo hi bf2 bl2 bs2).2.2 := by
  intro fuel
  induction fuel with
  | zero => intro lo hi bf1 bl1 bs1 bf2 bl2 bs2 hb _; exact hb
  | succ n ih =>
    intro lo hi bf1 bl1 bs1 bf2 bl2 bs2 hb hblo
    by_cases hle : lo ≤ hi
    · simp only [fitLoop, if_pos hle]
      by_cases hL : L ((lo + hi) / 2) = true
      · rw [if_pos hL, if_pos hL]
        by_cases ht1 : totalHeight6 M T W ((lo + hi) / 2) ≤ 5 * maxH1
        · have ht2 : totalHeight6 M T W ((lo + hi) / 2) ≤ 5 * maxH2 :=
            le_trans ht1 (Nat.mul_le_mul_left 5 h12)
          rw [if_pos ht1, if_pos ht2]
          exact ih _ _ _ _ _ _ _ _ (le_refl _) (by omega)
        · rw [if_neg ht1]
          by_cases ht2 : totalHeight6 M T W ((lo + hi) / 2) ≤ 5 * maxH2
          · rw [if_pos ht2]
            calc (fitLoop L M T W maxH1 n lo ((lo + hi) / 2 - 1) bf1 bl1 bs1).2.2 ≤
                max bs1 ((lo + hi) / 2 - 1) := fitLoop_le_max L M T W maxH1 n _ _ _ _ _
            _ ≤ (lo + hi) / 2 := by omega
            _ ≤ _ := fitLoop_ge_best L M T W maxH2 n ((lo + hi) / 2 + 1) hi
                (some ((lo + hi) / 2)) _ ((lo + hi) / 2) (by omega)
          · rw [if_neg ht2]
            exact ih _ _ _ _ _ _ _ _ hb hblo
      · rw [if_neg hL, if_neg hL]
        exact ih _ _ _ _ _ _ _ _ hb hblo
    · simp only [fitLoop, if_neg hle]
      exact hb

/-- Correctness of the binary search under a monotone stacked-height
function: starting from a state whose best records the last feasible
`lo - 1` (or the initial `(None, [], 20)`), with everything above `hi`
infeasible and size 20 feasible, the loop returns the greatest feasible size
in `[20, 120]` together with its wrap. -/
theorem fitLoop_max (L : ℕ → Bool) (M : ℕ → String → ℕ × ℕ)
    (T : String) (W maxH : ℕ) (hload : ∀ s, L s = true)
    (hmono : ∀ s t : ℕ, s ≤ t → totalHeight6 M T W s ≤ totalHeight6 M T W t)
    (h20 : totalHeight6 M T W 20 ≤ 5 * maxH) :
    ∀ fuel lo hi (bf : Option ℕ) (bl : List String) (bs : ℕ),
      hi + 1 - lo < fuel →
      20 ≤ lo → hi ≤ 120 → lo ≤ hi + 1 →
      (∀ s, hi < s → s ≤ 120 → ¬ totalHeight6 M T W s ≤ 5 * maxH) →
      (if 20 < lo then
        bs = lo - 1 ∧ totalHeight6 M T W bs ≤ 5 * maxH ∧
          bf = some bs ∧ bl = wrapAt M T W bs
       else bf = none ∧ bl = [] ∧ bs = 20) →
      ∃ b, fitLoop L M T W maxH fuel lo hi bf bl bs =
          (some b, wrapAt M T W b, b) ∧
        20 ≤ b ∧ b ≤ 120 ∧ totalHeight6 M T W b ≤ 5 * maxH ∧
        ∀ s, s ≤ 120 → totalHeight6 M T W s ≤ 5 * maxH → s ≤ b := by
  intro fuel
  induction fuel with
  | zero => intro lo hi bf bl bs hfuel _ _ _ _ _; omega
  | succ n ih =>
    intro lo hi bf bl bs hfuel hlo hhi hlohi hiInv hbest
    by_cases hle : lo ≤ hi
    · have hmlo : lo ≤ (lo + hi) / 2 := by omega
      have hmhi : (lo + hi) / 2 ≤ hi := by omega
      simp only [fitLoop, if_pos hle, hload ((lo + hi) / 2), if_true]
      by_cases ht : totalHeight6 M T W ((lo + hi) / 2) ≤ 5 * maxH
      · rw [if_pos ht]
        apply ih ((lo + hi) / 2 + 1) hi (some ((lo + hi) / 2)) _ ((lo + hi) / 2)
          (by omega) (by omega) hhi (by omega) hiInv
        rw [if_pos (by omega)]
        exact ⟨by omega, by simpa using ht, rfl, rfl⟩
      · rw [if_neg ht]
        apply ih lo ((lo + hi) / 2 - 1) bf bl bs (by omega) hlo (by omega)
          (by omega) ?_ hbest
        intro s hs1 hs2 habs
        exact ht (le_trans (hmono ((lo + hi) / 2) s (by omega)) habs)
    · have hexit : lo = hi + 1 := by omega
      by_cases h20lt : 20 < lo
      · rw [if_pos h20lt] at hbest
        obtain ⟨hbs, hbtot, hbf, hbl⟩ := hbest
        refine ⟨bs, ?_, by omega, by omega, hbtot, ?_⟩
        · simp only [fitLoop, if_neg hle, hbf, hbl]
        · intro s hs hts
          by_contra hgt
          exact hiInv s (by omega) hs hts
      · exfalso
        have : lo = 20 := by omega
        exact hiInv 20 (by omega) (by norm_num) h20

/-- Claim C1 (counterexample to the claim as stated): with the measurement
`measureFlat` every probed size overflows the 600-pixel text area.  The
layout engine does NOT return the 20pt wrapped lines — the 20pt wrap is
`["hello world"]` but the search returns `(None, [], 20)` because `best_font`
is never set — and composition raises
`ValueError("Could not fit text in available space")` instead of
proceeding. -/
theorem c1_min_overflow_counterexample :
    find_optimal_font_size (fun _ => true) measureFlat "hello world"
        text_area_width text_area_height = (none, [], 20) ∧
    wrapAt measureFlat "hello world" text_area_width 20 = ["hello world"] ∧
    (["hello world"] : List String) ≠ [] ∧
    compose_thumbnail (fun _ => []) 92 76 max_file_size_bytes 1920 1080
        (fun _ => true) measureFlat "hello world" none "req" =
      Except.error "Could not fit text in available space" :=
  ⟨by decide, by decide, by decide, by rfl⟩

/-- Claim C1 (amended): when the wrapped lines of the title overflow the
text-area height at every size in `[20, 120]` (in particular at the minimum
size 20), the layout search returns `(None, [], 20)` — no font and no lines,
not the 20pt layout — and `compose_thumbnail` raises
`ValueError("Could not fit text in available space")` rather than producing
a thumbnail. -/
theorem c1_min_overflow_raises (enc : ℤ → List ℕ) (startQ minQ : ℤ)
    (maxBytes bgW bgH : ℕ) (M : ℕ → String → ℕ × ℕ) (title stem : String)
    (hbgw : 2 ≤ bgW) (hbgh : 1 ≤ bgH)
    (hover : ∀ s, 20 ≤ s → s ≤ 120 →
      ¬ totalHeight6 M title text_area_width s ≤ 5 * text_area_height) :
    find_optimal_font_size (fun _ => true) M title text_area_width
        text_area_height = (none, [], 20) ∧
    compose_thumbnail enc startQ minQ maxBytes bgW bgH (fun _ => true) M
        title none stem =
      Except.error "Could not fit text in available space" := by
  have hfind : find_optimal_font_size (fun _ => true) M title text_area_width
      text_area_height = (none, [], 20) :=
    fitLoop_all_over (fun _ => true) M title text_area_width text_area_height
      (fun _ => rfl) hover 102 20 120 none [] 20 (le_refl 20) (le_refl 120)
  refine ⟨hfind, ?_⟩
  obtain ⟨r, hr, _, _⟩ := resize_ok bgW bgH hbgw hbgh
  simp only [compose_thumbnail, hr, hfind]

set_option maxRecDepth 100000 in
/-- Witness for C1: the amended theorem applied to `measureFlat` (constant
line height 1000, so `6 * 1000 > 5 * 600` at every size) over a 1920×1080
background. -/
theorem c1_min_overflow_raises_witness :
    (2 ≤ 1920 ∧ 1 ≤ 1080 ∧ ∀ s, 20 ≤ s → s ≤ 120 →
      ¬ totalHeight6 measureFlat "hello world" text_area_width s ≤
        5 * text_area_height) ∧
    (find_optimal_font_size (fun _ => true) measureFlat "hello world"
        text_area_width text_area_height = (none, [], 20) ∧
    compose_thumbnail (fun _ => []) 92 76 max_file_size_bytes 1920 1080
        (fun _ => true) measureFlat "hello world" none "req" =
      Except.error "Could not fit text in available space") :=
  have H : ∀ s, s ≤ 120 →
      ¬ totalHeight6 measureFlat "hello world" text_area_width s ≤
        5 * text_area_height := by decide
  ⟨⟨by norm_num, by norm_num, fun s h1 h2 => H s h2⟩,
    c1_min_overflow_raises (fun _ => []) 92 76 max_file_size_bytes 1920 1080
      measureFlat "hello world" "req" (by norm_num) (by norm_num)
      (fun s h1 h2 => H s h2)⟩

/-- Claim C5 (counterexample to the claim as stated): with the measurement
`measureSpiky` (feasible exactly at sizes 44 and 100, fonts loadable at
every size), the search returns size 44, yet 100 is a feasible size in
`[20, 120]` — the returned size is not the maximum feasible one, because
binary search requires monotone feasibility and never probes 100. -/
theorem c5_max_counterexample :
    (find_optimal_font_size (fun _ => true) measureSpiky "hi" 50 2).2.2 = 44 ∧
    totalHeight6 measureSpiky "hi" 50 100 ≤ 5 * 2 ∧
    (100 : ℕ) ≤ 120 ∧ ¬ (100 : ℕ) ≤ 44 :=
  ⟨by decide, by decide, by decide, by decide⟩

/-- Claim C5 (amended): when fonts load at every size and the stacked height
`6 * (line count × line height)` is monotone in the font size (as it is for
real font metrics), and size 20 fits, `_find_optimal_font_size` returns the
greatest size `b` in `[20, 120]` whose stacked height fits `maxH`
(`lines × height × 1.2 ≤ maxH`, rendered exactly), together with the wrap of
the text at exactly that size and the font at that size. -/
theorem c5_binary_search_max (L : ℕ → Bool) (M : ℕ → String → ℕ × ℕ)
    (T : String) (W maxH : ℕ) (hload : ∀ s, L s = true)
    (hmono : ∀ s t : ℕ, s ≤ t → totalHeight6 M T W s ≤ totalHeight6 M T W t)
    (h20 : totalHeight6 M T W 20 ≤ 5 * maxH) :
    ∃ b, find_optimal_font_size L M T W maxH = (some b, wrapAt M T W b, b) ∧
      20 ≤ b ∧ b ≤ 120 ∧ totalHeight6 M T W b ≤ 5 * maxH ∧
      ∀ s, s ≤ 120 → totalHeight6 M T W s ≤ 5 * maxH → s ≤ b :=
  fitLoop_max L M T W maxH hload hmono h20 102 20 120 none [] 20
    (by norm_num) (le_refl 20) (le_refl 120) (by norm_num)
    (fun s hs1 hs2 => absurd hs1 (by omega))
    (by rw [if_neg (by norm_num)]; exact ⟨rfl, rfl, rfl⟩)

/-- Witness for C5: the amended theorem applied to the measurement whose
line height equals the font size (monotone), where the chosen size is the
cap 120. -/
theorem c5_binary_search_max_witness :
    ((∀ s : ℕ, (fun _ : ℕ => true) s = true) ∧
      (∀ s t : ℕ, s ≤ t →
        totalHeight6 (fun s0 _ => (0, s0)) "a" 50 s ≤
          totalHeight6 (fun s0 _ => (0, s0)) "a" 50 t) ∧
      totalHeight6 (fun s0 _ => (0, s0)) "a" 50 20 ≤ 5 * 600) ∧
    ∃ b, find_optimal_font_size (fun _ => true) (fun s0 _ => (0, s0)) "a" 50
        600 = (some b, wrapAt (fun s0 _ => (0, s0)) "a" 50 b, b) ∧
      20 ≤ b ∧ b ≤ 120 ∧
      totalHeight6 (fun s0 _ => (0, s0)) "a" 50 b ≤ 5 * 600 ∧
      ∀ s, s ≤ 120 →
        totalHeight6 (fun s0 _ => (0, s0)) "a" 50 s ≤ 5 * 600 → s ≤ b :=
  ⟨⟨fun _ => rfl,
    fun s t h => by
      show 6 * (1 * s) ≤ 6 * (1 * t)
      omega,
    by decide⟩,
    c5_binary_search_max (fun _ => true) (fun s0 _ => (0, s0)) "a" 50 600
      (fun _ => rfl)
      (fun s t h => by
        show 6 * (1 * s) ≤ 6 * (1 * t)
        omega)
      (by decide)⟩

/-- Claim C9: for a fixed text, text-area width, measurement and font
loader, enlarging the available height never decreases the size chosen by
`_find_optimal_font_size` (this holds for arbitrary measurements, monotone
or not). -/
theorem c9_height_monotone (L : ℕ → Bool) (M : ℕ → String → ℕ × ℕ)
    (T : String) (W : ℕ) (maxH1 maxH2 : ℕ) (h : maxH1 ≤ maxH2) :
    (find_optimal_font_size L M T W maxH1).2.2 ≤
      (find_optimal_font_size L M T W maxH2).2.2 :=
  fitLoop_mono L M T W maxH1 maxH2 h 102 20 120 none [] 20 none [] 20
    (le_refl 20) (le_refl 20)

/-- Witness for C9: heights 100 ≤ 2000 with a concrete measurement. -/
theorem c9_height_monotone_witness :
    (100 : ℕ) ≤ 2000 ∧
    (find_optimal_font_size (fun _ => true) (fun s0 _ => (0, s0)) "a" 50
        100).2.2 ≤
      (find_optimal_font_size (fun _ => true) (fun s0 _ => (0, s0)) "a" 50
        2000).2.2 :=
  ⟨by norm_num,
    c9_height_monotone (fun _ => true) (fun s0 _ => (0, s0)) "a" 50 100 2000
      (by norm_num)⟩

/-- The space character, `" "`. -/
theorem sp_data : (" ").data = [Char.ofNat 32] := by decide

theorem joinSp_append_last (g : List String) (w : String) (hg : g ≠ []) :
    joinSp (g ++ [w]) = joinSp g ++ " " ++ w := by
  cases g with
  | nil => exact absurd rfl hg
  | cons h t =>
    show (t ++ [w]).foldl (fun acc x => acc ++ " " ++ x) h = _
    rw [List.foldl_append]
    rfl

theorem append_sp_data (a b : String) :
    (a ++ " " ++ b).data = a.data ++ Char.ofNat 32 :: b.data := by
  rw [String.data_append, String.data_append, sp_data]
  simp

theorem str_append_sp_ne (a b : String) : a ++ " " ++ b ≠ "" := by
  intro h
  have hd : (a ++ " " ++ b).data = [] := by rw [h]
  rw [append_sp_data] at hd
  exact absurd hd (by simp)

theorem str_ne_empty (w : String) (h : w.data ≠ []) : w ≠ "" := by
  intro hw
  rw [hw] at h
  exact h rfl

/-- Every word produced by `wordsAux` (over a whitespace-free accumulator)
is non-empty and whitespace-free. -/
theorem wordsAux_nice :
    ∀ (l acc : List Char), (∀ c ∈ acc, c.isWhitespace = false) →
      ∀ w ∈ wordsAux l acc, w.data ≠ [] ∧ ∀ c ∈ w.data, c.isWhitespace = false := by
  intro l
  induction l with
  | nil =>
    intro acc hacc w hw
    by_cases hz : acc = ([] : List Char)
    · rw [wordsAux, if_pos hz] at hw
      exact absurd hw (by simp)
    · rw [wordsAux, if_neg hz] at hw
      have : w = String.mk acc.reverse := by simpa using hw
      subst this
      constructor
      · simpa using hz
      · intro c hc
        exact hacc c (by simpa using hc)
  | cons c cs ih =>
    intro acc hacc w hw
    by_cases hws : c.isWhitespace = true
    · by_cases hz : acc = ([] : List Char)
      · rw [wordsAux, if_pos hws, if_pos hz] at hw
        exact ih [] (by simp) w hw
      · rw [wordsAux, if_pos hws, if_neg hz] at hw
        rcases List.mem_cons.mp hw with he | hm
        · subst he
          refine ⟨by simpa using hz, ?_⟩
          intro c2 hc2
          exact hacc c2 (by simpa using hc2)
        · exact ih [] (by simp) w hm
    · rw [wordsAux, if_neg hws] at hw
      refine ih (c :: acc) ?_ w hw
      intro c2 hc2
      rcases List.mem_cons.mp hc2 with he | hm
      · subst he
        simpa using hws
      · exact hacc c2 hm

/-- Every word of `pyWords s` is non-empty and whitespace-free. -/
theorem pyWords_nice (s : String) :
    ∀ w ∈ pyWords s, w ≠ "" ∧ ∀ c ∈ w.data, c.isWhitespace = false := by
  intro w hw
  obtain ⟨h1, h2⟩ := wordsAux_nice s.data [] (by simp) w hw
  exact ⟨str_ne_empty w h1, h2⟩

/-- `wordsAux` consumes a whitespace-free prefix into the accumulator. -/
theorem wordsAux_skip :
    ∀ (d : List Char), (∀ c ∈ d, c.isWhitespace = false) →
      ∀ (rest acc : List Char),
        wordsAux (d ++ rest) acc = wordsAux rest (d.reverse ++ acc) := by
  intro d
  induction d with
  | nil => intro _ rest acc; simp
  | cons c cs ih =>
    intro hn rest acc
    have hc : c.isWhitespace = false := hn c (by simp)
    show wordsAux (c :: (cs ++ rest)) acc = _
    rw [wordsAux, if_neg (by simp [hc])]
    rw [ih (fun c2 hc2 => hn c2 (by simp [hc2])) rest (c :: acc)]
    congr 1
    simp [List.reverse_cons, List.append_assoc]

/-- The characters of `joinSp (h :: t)`: the head word followed by each
remaining word preceded by one space. -/
theorem joinSp_data :
    ∀ (t : List String) (h : String),
      (joinSp (h :: t)).data =
        h.data ++ t.flatMap (fun w => Char.ofNat 32 :: w.data) := by
  intro t
  induction t with
  | nil => intro h; simp [joinSp]
  | cons w t2 ih =>
    intro h
    have e : joinSp (h :: w :: t2) = joinSp ((h ++ " " ++ w) :: t2) := rfl
    rw [e, ih (h ++ " " ++ w), append_sp_data]
    simp

/-- Splitting the space-joined words recovers exactly the words, provided
they are non-empty and whitespace-free. -/
theorem wordsAux_roundtrip :
    ∀ (t : List String) (h : String),
      (h.data ≠ [] ∧ ∀ c ∈ h.data, c.isWhitespace = false) →
      (∀ w ∈ t, w.data ≠ [] ∧ ∀ c ∈ w.data, c.isWhitespace = false) →
      wordsAux (h.data ++ t.flatMap (fun w => Char.ofNat 32 :: w.data)) [] =
        h :: t := by
  intro t
  induction t with
  | nil =>
    intro h hh _
    rw [wordsAux_skip h.data hh.2 _ []]
    show wordsAux [] (h.data.reverse ++ []) = _
    rw [wordsAux, if_neg (by simp [hh.1])]
    simp
  | cons w t2 ih =>
    intro h hh ht
    have e : (w :: t2).flatMap (fun w0 => Char.ofNat 32 :: w0.data) =
        Char.ofNat 32 :: (w.data ++ t2.flatMap (fun w0 => Char.ofNat 32 :: w0.data)) := by
      simp
    rw [e, wordsAux_skip h.data hh.2 _ []]
    show wordsAux (Char.ofNat 32 :: (w.data ++ _)) (h.data.reverse ++ []) = _
    rw [wordsAux, if_pos (by decide), if_neg (by simp [hh.1])]
    rw [ih w (ht w (by simp)) (fun u hu => ht u (by simp [hu]))]
    simp

/-- `pyWords` is a left inverse of `joinSp` on non-empty lists of nice
words. -/
theorem pyWords_joinSp (g : List String) (hg : g ≠ [])
    (hnice : ∀ w ∈ g, w.data ≠ [] ∧ ∀ c ∈ w.data, c.isWhitespace = false) :
    pyWords (joinSp g) = g := by
  cases g with
  | nil => exact absurd rfl hg
  | cons h t =>
    show wordsAux (joinSp (h :: t)).data [] = h :: t
    rw [joinSp_data]
    exact wordsAux_roundtrip t h (hnice h (by simp))
      (fun w hw => hnice w (by simp [hw]))

/-- A line joined from a non-empty list of non-empty words is non-empty. -/
theorem joinSp_ne_empty (g : List String) (hg : g ≠ [])
    (hnice : ∀ w ∈ g, w.data ≠ []) : joinSp g ≠ "" := by
  cases g with
  | nil => exact absurd rfl hg
  | cons h t =>
    apply str_ne_empty
    rw [joinSp_data]
    intro habs
    rcases List.append_eq_nil.mp habs with ⟨h1, _⟩
    exact hnice h (by simp) h1


theorem joinSp_singleton (w : String) : joinSp [w] = w := rfl

theorem wrap_step_sim (measure : String → ℕ) (maxW : ℕ)
    (gs : List (List String)) (cur : List String) (w : String) (hw : w ≠ "")
    (hiff : joinSp cur = "" ↔ cur = []) :
    wrap_step measure maxW (gs.map joinSp, joinSp cur) w =
      ((wrapGStep measure maxW (gs, cur) w).1.map joinSp,
        joinSp (wrapGStep measure maxW (gs, cur) w).2) ∧
    (joinSp (wrapGStep measure maxW (gs, cur) w).2 = "" ↔
      (wrapGStep measure maxW (gs, cur) w).2 = []) := by
  cases cur with
  | nil =>
    have hj : joinSp ([] : List String) = "" := rfl
    have e : joinSp ([] ++ [w]) = w := rfl
    simp only [wrap_step, wrapGStep, hj, e, eq_self_iff_true, if_true,
      List.nil_append, joinSp_singleton]
    by_cases hacc : measure w ≤ maxW
    · rw [if_pos hacc, if_pos hacc]
      exact ⟨rfl, iff_of_false hw (by simp)⟩
    · rw [if_neg hacc, if_neg hacc]
      refine ⟨?_, by simp [hj]⟩
      rw [List.map_append, hj]
      rfl
  | cons c cs =>
    have hne : (c :: cs : List String) ≠ [] := by simp
    have hsne : joinSp (c :: cs) ≠ "" := fun he => hne (hiff.mp he)
    have e : joinSp ((c :: cs) ++ [w]) = joinSp (c :: cs) ++ " " ++ w :=
      joinSp_append_last (c :: cs) w hne
    simp only [wrap_step, wrapGStep, if_neg hsne, if_neg hne, e]
    by_cases hacc : measure (joinSp (c :: cs) ++ " " ++ w) ≤ maxW
    · rw [if_pos hacc, if_pos hacc]
      exact ⟨by rw [e], iff_of_false (e ▸ str_append_sp_ne (joinSp (c :: cs)) w)
        (by simp)⟩
    · rw [if_neg hacc, if_neg hacc]
      refine ⟨?_, iff_of_false (by rw [joinSp_singleton]; exact hw) (by simp)⟩
      rw [List.map_append, joinSp_singleton]
      rfl

/-- The string-level wrap fold of `_wrap_text_to_fit` is simulated by the
group-level fold: lines are the space-joins of the groups. -/
theorem wrap_fold_sim (measure : String → ℕ) (maxW : ℕ) :
    ∀ (ws : List String), (∀ w ∈ ws, w ≠ "") →
      ∀ (gs : List (List String)) (cur : List String),
        (joinSp cur = "" ↔ cur = []) →
        ws.foldl (wrap_step measure maxW) (gs.map joinSp, joinSp cur) =
          (((ws.foldl (wrapGStep measure maxW) (gs, cur)).1).map joinSp,
            joinSp (ws.foldl (wrapGStep measure maxW) (gs, cur)).2) ∧
        (joinSp (ws.foldl (wrapGStep measure maxW) (gs, cur)).2 = "" ↔
          (ws.foldl (wrapGStep measure maxW) (gs, cur)).2 = []) := by
  intro ws
  induction ws with
  | nil => intro _ gs cur hiff; exact ⟨rfl, hiff⟩
  | cons w ws ih =>
    intro hws gs cur hiff
    have hwne : w ≠ "" := hws w (by simp)
    have hrest : ∀ u ∈ ws, u ≠ "" := fun u hu => hws u (by simp [hu])
    obtain ⟨hpair, hiff2⟩ := wrap_step_sim measure maxW gs cur w hwne hiff
    show ws.foldl (wrap_step measure maxW)
        (wrap_step measure maxW (gs.map joinSp, joinSp cur) w) = _ ∧ _
    rw [hpair]
    exact ih hrest (wrapGStep measure maxW (gs, cur) w).1
      (wrapGStep measure maxW (gs, cur) w).2 hiff2

/-- `_wrap_text_to_fit` returns exactly the space-joins of the word groups
computed by the group-level wrap. -/
theorem wrap_eq_groups (measure : String → ℕ) (maxW : ℕ) (text : String) :
    wrap_text_to_fit measure text maxW =
      (wrapGroups measure maxW (pyWords text)).map joinSp := by
  have hws : ∀ w ∈ pyWords text, w ≠ "" := fun w hw => (pyWords_nice text w hw).1
  have hj : joinSp ([] : List String) = "" := rfl
  obtain ⟨hpair, hiff⟩ := wrap_fold_sim measure maxW (pyWords text) hws [] []
    (by simp [hj])
  unfold wrap_text_to_fit wrapGroups
  have h0 : ((pyWords text).foldl (wrap_step measure maxW) ([], "")) =
      ((pyWords text).foldl (wrap_step measure maxW)
        (([] : List (List String)).map joinSp, joinSp [])) := rfl
  rw [h0, hpair]
  by_cases hc : ((pyWords text).foldl (wrapGStep measure maxW) ([], [])).2 = []
  · rw [if_pos (hiff.mpr hc), if_pos hc]
  · rw [if_neg (fun he => hc (hiff.mp he)), if_neg hc, List.map_append]
    simp

/-- `wrapGStep` written as a three-way case split. -/
theorem wrapGStep_eq (measure : String → ℕ) (maxW : ℕ)
    (gs : List (List String)) (cur : List String) (w : String) :
    wrapGStep measure maxW (gs, cur) w =
      if measure (joinSp (cur ++ [w])) ≤ maxW then (gs, cur ++ [w])
      else if cur = [] then (gs ++ [[w]], []) else (gs ++ [cur], [w]) := rfl

/-- The group-level wrap fold partitions its input: the concatenation of all
closed groups followed by the current group equals the words consumed so
far, and every closed group is non-empty. -/
theorem wrapG_partition (measure : String → ℕ) (maxW : ℕ) :
    ∀ (ws : List String) (gs : List (List String)) (cur : List String),
      (∀ g ∈ gs, g ≠ []) →
      ((ws.foldl (wrapGStep measure maxW) (gs, cur)).1).flatten ++
          (ws.foldl (wrapGStep measure maxW) (gs, cur)).2 =
        (gs.flatten ++ cur) ++ ws ∧
      ∀ g ∈ (ws.foldl (wrapGStep measure maxW) (gs, cur)).1, g ≠ [] := by
  intro ws
  induction ws with
  | nil => intro gs cur hne; exact ⟨by simp, hne⟩
  | cons w ws ih =>
    intro gs cur hne
    rw [List.foldl_cons, wrapGStep_eq]
    by_cases hacc : measure (joinSp (cur ++ [w])) ≤ maxW
    · rw [if_pos hacc]
      obtain ⟨h1, h2⟩ := ih gs (cur ++ [w]) hne
      refine ⟨?_, h2⟩
      rw [h1]
      simp [List.append_assoc]
    · rw [if_neg hacc]
      by_cases hc : cur = []
      · rw [if_pos hc]
        have hne2 : ∀ g ∈ gs ++ [[w]], g ≠ [] := by
          intro g hg
          rcases List.mem_append.mp hg with hg2 | hg2
          · exact hne g hg2
          · have e2 : g = [w] := by simpa using hg2
            rw [e2]
            simp
        obtain ⟨h1, h2⟩ := ih (gs ++ [[w]]) [] hne2
        refine ⟨?_, h2⟩
        rw [h1, hc]
        simp [List.append_assoc]
      · rw [if_neg hc]
        have hne2 : ∀ g ∈ gs ++ [cur], g ≠ [] := by
          intro g hg
          rcases List.mem_append.mp hg with hg2 | hg2
          · exact hne g hg2
          · have e2 : g = cur := by simpa using hg2
            rw [e2]
            exact hc
        obtain ⟨h1, h2⟩ := ih (gs ++ [cur]) [w] hne2
        refine ⟨?_, h2⟩
        rw [h1]
        simp [List.append_assoc]

/-- The final groups of `wrapGroups` partition the input words, and every
group is non-empty. -/
theorem wrapGroups_partition (measure : String → ℕ) (maxW : ℕ)
    (ws : List String) :
    (wrapGroups measure maxW ws).flatten = ws ∧
    ∀ g ∈ wrapGroups measure maxW ws, g ≠ [] := by
  obtain ⟨h1, h2⟩ := wrapG_partition measure maxW ws [] [] (by simp)
  unfold wrapGroups
  by_cases hc : (ws.foldl (wrapGStep measure maxW) ([], [])).2 = []
  · rw [if_pos hc]
    rw [hc] at h1
    refine ⟨?_, h2⟩
    simpa using h1
  · rw [if_neg hc]
    constructor
    · rw [List.flatten_append]
      simpa using h1
    · intro g hg
      rcases List.mem_append.mp hg with hg2 | hg2
      · exact h2 g hg2
      · have : g = (ws.foldl (wrapGStep measure maxW) ([], [])).2 := by
          simpa using hg2
        rw [this]
        exact hc

theorem str_data_ne (w : String) (h : w ≠ "") : w.data ≠ [] := by
  intro hd
  apply h
  cases w with
  | mk d =>
    simp only at hd
    rw [hd]

/-- Claim C10: splitting each line returned by `_wrap_text_to_fit` back into
whitespace-delimited words and concatenating, in line order, yields exactly
the whitespace-split word sequence of the input text — no word is dropped,
duplicated, split or reordered — and every returned line is non-empty. -/
theorem c10_wrap_partition (measure : String → ℕ) (text : String) (maxW : ℕ) :
    ((wrap_text_to_fit measure text maxW).map pyWords).flatten =
      pyWords text ∧
    ∀ l ∈ wrap_text_to_fit measure text maxW, l ≠ "" := by
  rw [wrap_eq_groups]
  obtain ⟨hpart, hne⟩ := wrapGroups_partition measure maxW (pyWords text)
  have hnice : ∀ g ∈ wrapGroups measure maxW (pyWords text), ∀ w ∈ g,
      w.data ≠ [] ∧ ∀ c ∈ w.data, c.isWhitespace = false := by
    intro g hg w hw
    have hmem : w ∈ pyWords text := by
      rw [← hpart]
      exact List.mem_flatten.mpr ⟨g, hg, hw⟩
    obtain ⟨h1, h2⟩ := pyWords_nice text w hmem
    exact ⟨str_data_ne w h1, h2⟩
  constructor
  · rw [List.map_map]
    have hcg : (wrapGroups measure maxW (pyWords text)).map (pyWords ∘ joinSp) =
        (wrapGroups measure maxW (pyWords text)).map id :=
      List.map_congr_left (fun g hg => pyWords_joinSp g (hne g hg) (hnice g hg))
    rw [hcg, List.map_id]
    exact hpart
  · intro l hl
    obtain ⟨g, hg, hlg⟩ := List.mem_map.mp hl
    rw [← hlg]
    exact joinSp_ne_empty g (hne g hg) (fun w hw => (hnice g hg w hw).1)

/-- Witness for C10: the theorem applied to pixel-width `String.length`,
text `"hello world"` and width 7. -/
theorem c10_wrap_partition_witness :
    ((wrap_text_to_fit String.length "hello world" 7).map pyWords).flatten =
      pyWords "hello world" ∧
    ∀ l ∈ wrap_text_to_fit String.length "hello world" 7, l ≠ "" :=
  c10_wrap_partition String.length "hello world" 7


/-- The wrap fold preserves `WInv`. -/
theorem wrapGStep_inv (measure : String → ℕ) (maxW : ℕ)
    (happ : ∀ s w : String, measure s ≤ measure (s ++ " " ++ w))
    (hpre : ∀ s w : String, measure w ≤ measure (s ++ " " ++ w))
    (gs : List (List String)) (cur : List String) (w : String)
    (h : WInv measure maxW (gs, cur)) :
    WInv measure maxW (wrapGStep measure maxW (gs, cur) w) := by
  obtain ⟨I1, I2, I3, I4, I5, I6⟩ := h
  rw [wrapGStep_eq]
  by_cases hacc : measure (joinSp (cur ++ [w])) ≤ maxW
  · rw [if_pos hacc]
    refine ⟨I1, fun _ => hacc, I3, ?_, ?_, ?_⟩
    · intro g hg u hu
      cases cur with
      | nil =>
        have hu2 : w = u := by simpa using hu
        subst hu2
        obtain ⟨v, hgv, hov⟩ := I5 rfl g hg
        rw [hgv, joinSp_singleton]
        exact lt_of_lt_of_le hov (happ v w)
      | cons c cs =>
        have hu2 : c = u := by simpa using hu
        subst hu2
        exact I4 g hg c (by simp)
    · intro habs
      exact absurd habs (by simp)
    · intro u hu
      refine ⟨(I6 u hu).1, ?_⟩
      intro humem
      exfalso
      rcases List.mem_append.mp humem with hin | hin
      · have hcu : cur = [u] := (I6 u hu).2 hin
        rw [hcu, joinSp_append_last [u] w (by simp), joinSp_singleton] at hacc
        exact absurd hacc (not_le.mpr (lt_of_lt_of_le hu (happ u w)))
      · have hu2 : u = w := by simpa using hin
        subst hu2
        cases cur with
        | nil =>
          have e : joinSp ([] ++ [u]) = u := rfl
          rw [e] at hacc
          exact absurd hacc (not_le.mpr hu)
        | cons c cs =>
          rw [joinSp_append_last (c :: cs) u (by simp)] at hacc
          exact absurd hacc
            (not_le.mpr (lt_of_lt_of_le hu (hpre (joinSp (c :: cs)) u)))
  · rw [if_neg hacc]
    by_cases hc : cur = []
    · rw [if_pos hc]
      subst hc
      have hov : maxW < measure w := by
        have e : joinSp ([] ++ [w]) = w := rfl
        rw [e] at hacc
        exact not_le.mp hacc
      refine ⟨?_, by simp, ?_, ?_, ?_, ?_⟩
      · intro g hg hgl
        rcases List.mem_append.mp hg with hin | hin
        · exact I1 g hin hgl
        · have e2 : g = [w] := by simpa using hin
          rw [e2] at hgl
          simp at hgl
      · rw [List.chain'_append]
        refine ⟨I3, List.chain'_singleton _, ?_⟩
        intro x hx y hy
        have hy2 : [w] = y := by simpa using hy
        subst hy2
        intro u hu
        have hu2 : w = u := by simpa using hu
        subst hu2
        obtain ⟨v, hxv, hov2⟩ := I5 rfl x hx
        rw [hxv, joinSp_singleton]
        exact lt_of_lt_of_le hov2 (happ v w)
      · intro g hg u hu
        exact absurd hu (by simp)
      · intro _ g hg
        rw [List.getLast?_concat] at hg
        have hg2 : [w] = g := by simpa using hg
        exact ⟨w, hg2.symm, hov⟩
      · intro u hu
        refine ⟨?_, fun humem => absurd humem (by simp)⟩
        intro g hg hug
        rcases List.mem_append.mp hg with hin | hin
        · exact (I6 u hu).1 g hin hug
        · have e2 : g = [w] := by simpa using hin
          subst e2
          have hu2 : u = w := by simpa using hug
          rw [hu2]
    · rw [if_neg hc]
      have htest : maxW < measure (joinSp cur ++ " " ++ w) := by
        rw [← joinSp_append_last cur w hc]
        exact not_le.mp hacc
      refine ⟨?_, ?_, ?_, ?_, ?_, ?_⟩
      · intro g hg hgl
        rcases List.mem_append.mp hg with hin | hin
        · exact I1 g hin hgl
        · have e2 : g = cur := by simpa using hin
          subst e2
          exact I2 hgl
      · intro habs
        simp at habs
      · rw [List.chain'_append]
        refine ⟨I3, List.chain'_singleton _, ?_⟩
        intro x hx y hy
        have hy2 : cur = y := by simpa using hy
        subst hy2
        intro u hu
        exact I4 x hx u hu
      · intro g hg u hu
        rw [List.getLast?_concat] at hg
        have hg2 : cur = g := by simpa using hg
        have hu2 : w = u := by simpa using hu
        subst hg2
        subst hu2
        exact htest
      · intro habs
        simp at habs
      · intro u hu
        refine ⟨?_, ?_⟩
        · intro g hg hug
          rcases List.mem_append.mp hg with hin | hin
          · exact (I6 u hu).1 g hin hug
          · have e2 : g = cur := by simpa using hin
            subst e2
            exact (I6 u hu).2 hug
        · intro humem
          have hu2 : u = w := by simpa using humem
          rw [hu2]

/-- `WInv` holds after folding any word list from an invariant state. -/
theorem wrapG_inv_fold (measure : String → ℕ) (maxW : ℕ)
    (happ : ∀ s w : String, measure s ≤ measure (s ++ " " ++ w))
    (hpre : ∀ s w : String, measure w ≤ measure (s ++ " " ++ w)) :
    ∀ (ws : List String) (gs : List (List String)) (cur : List String),
      WInv measure maxW (gs, cur) →
      WInv measure maxW (ws.foldl (wrapGStep measure maxW) (gs, cur)) := by
  intro ws
  induction ws with
  | nil => intro gs cur h; exact h
  | cons w ws ih =>
    intro gs cur h
    rw [List.foldl_cons]
    have h2 := wrapGStep_inv measure maxW happ hpre gs cur w h
    exact ih _ _ h2

/-- The initial wrap state satisfies the invariant. -/
theorem wInv_init (measure : String → ℕ) (maxW : ℕ) :
    WInv measure maxW (([] : List (List String)), ([] : List String)) := by
  refine ⟨?_, ?_, ?_, ?_, ?_, ?_⟩
  · intro g hg
    exact absurd hg (by simp)
  · intro habs
    simp at habs
  · exact List.chain'_nil
  · intro g hg
    exact absurd hg (by simp)
  · intro _ g hg
    exact absurd hg (by simp)
  · intro u hu
    exact ⟨fun g hg => absurd hg (by simp), fun humem => absurd humem (by simp)⟩

/-- `wrapGroups` written as its flush case split. -/
theorem wrapGroups_eq (measure : String → ℕ) (maxW : ℕ) (ws : List String) :
    wrapGroups measure maxW ws =
      if (ws.foldl (wrapGStep measure maxW) ([], [])).2 = []
      then (ws.foldl (wrapGStep measure maxW) ([], [])).1
      else (ws.foldl (wrapGStep measure maxW) ([], [])).1 ++
        [(ws.foldl (wrapGStep measure maxW) ([], [])).2] := rfl

/-- Greedy properties of the final groups: every multi-word line fits,
consecutive lines satisfy the boundary property, and every oversized word
is force-placed alone on its own line. -/
theorem wrapGroups_greedy (measure : String → ℕ) (maxW : ℕ)
    (ws : List String)
    (happ : ∀ s w : String, measure s ≤ measure (s ++ " " ++ w))
    (hpre : ∀ s w : String, measure w ≤ measure (s ++ " " ++ w)) :
    (∀ g ∈ wrapGroups measure maxW ws, 2 ≤ g.length →
      measure (joinSp g) ≤ maxW) ∧
    List.Chain' (WR measure maxW) (wrapGroups measure maxW ws) ∧
    ∀ u ∈ ws, maxW < measure u → [u] ∈ wrapGroups measure maxW ws := by
  obtain ⟨I1, I2, I3, I4, I5, I6⟩ :=
    wrapG_inv_fold measure maxW happ hpre ws [] [] (wInv_init measure maxW)
  obtain ⟨hpart, hne⟩ := wrapGroups_partition measure maxW ws
  refine ⟨?_, ?_, ?_⟩
  · intro g hg hgl
    rw [wrapGroups_eq] at hg
    by_cases hc : (ws.foldl (wrapGStep measure maxW) ([], [])).2 = []
    · rw [if_pos hc] at hg
      exact I1 g hg hgl
    · rw [if_neg hc] at hg
      rcases List.mem_append.mp hg with hin | hin
      · exact I1 g hin hgl
      · have e2 : g = (ws.foldl (wrapGStep measure maxW) ([], [])).2 := by
          simpa using hin
        rw [e2] at hgl
        rw [e2]
        exact I2 hgl
  · rw [wrapGroups_eq]
    by_cases hc : (ws.foldl (wrapGStep measure maxW) ([], [])).2 = []
    · rw [if_pos hc]
      exact I3
    · rw [if_neg hc]
      rw [List.chain'_append]
      refine ⟨I3, List.chain'_singleton _, ?_⟩
      intro x hx y hy
      have hy2 : (ws.foldl (wrapGStep measure maxW) ([], [])).2 = y := by
        simpa using hy
      subst hy2
      intro u hu
      exact I4 x hx u hu
  · intro u huws hov
    have humem : u ∈ (wrapGroups measure maxW ws).flatten := by
      rw [hpart]
      exact huws
    obtain ⟨g, hg, hug⟩ := List.mem_flatten.mp humem
    have hgu : g = [u] := by
      rw [wrapGroups_eq] at hg
      by_cases hc : (ws.foldl (wrapGStep measure maxW) ([], [])).2 = []
      · rw [if_pos hc] at hg
        exact (I6 u hov).1 g hg hug
      · rw [if_neg hc] at hg
        rcases List.mem_append.mp hg with hin | hin
        · exact (I6 u hov).1 g hin hug
        · have e2 : g = (ws.foldl (wrapGStep measure maxW) ([], [])).2 := by
            simpa using hin
          rw [e2]
          exact (I6 u hov).2 (e2 ▸ hug)
    rw [← hgu]
    exact hg

/-- Claim C6: the wrap builds lines greedily — the returned lines are the
space-joins of a partition `gs` of the whitespace-split words (no word is
ever split across lines); every line holding two or more words measured
within `maxW` (with extension-monotone measurement this covers every
accepted append test); consecutive lines satisfy `WR` (the first word of
the next line would have overflowed the previous line, which is exactly
when a line is closed); and a word whose measured width alone exceeds
`maxW` is placed alone on its own line. -/
theorem c6_wrap_greedy (measure : String → ℕ) (maxW : ℕ) (text : String)
    (happ : ∀ s w : String, measure s ≤ measure (s ++ " " ++ w))
    (hpre : ∀ s w : String, measure w ≤ measure (s ++ " " ++ w)) :
    ∃ gs : List (List String),
      wrap_text_to_fit measure text maxW = gs.map joinSp ∧
      gs.flatten = pyWords text ∧
      (∀ g ∈ gs, g ≠ []) ∧
      (∀ g ∈ gs, 2 ≤ g.length → measure (joinSp g) ≤ maxW) ∧
      List.Chain' (WR measure maxW) gs ∧
      ∀ u ∈ pyWords text, maxW < measure u → [u] ∈ gs := by
  obtain ⟨hpart, hne⟩ := wrapGroups_partition measure maxW (pyWords text)
  obtain ⟨hfit, hchain, hover⟩ :=
    wrapGroups_greedy measure maxW (pyWords text) happ hpre
  exact ⟨wrapGroups measure maxW (pyWords text),
    wrap_eq_groups measure maxW text, hpart, hne, hfit, hchain, hover⟩

/-- `String.length` never shrinks when a space and a word are appended. -/
theorem len_happ : ∀ s w : String, s.length ≤ (s ++ " " ++ w).length := by
  intro s w
  rw [String.length_append, String.length_append]
  omega
theorem len_hpre : ∀ s w : String, w.length ≤ (s ++ " " ++ w).length := by
  intro s w
  rw [String.length_append, String.length_append]
  omega

/-- Witness for C6: the theorem applied to pixel-width `String.length`,
width 5, text `"aa bb cc"`; the measurement is extension-monotone. -/
theorem c6_wrap_greedy_witness :
    ((∀ s w : String, s.length ≤ (s ++ " " ++ w).length) ∧
      (∀ s w : String, w.length ≤ (s ++ " " ++ w).length)) ∧
    ∃ gs : List (List String),
      wrap_text_to_fit String.length "aa bb cc" 5 = gs.map joinSp ∧
      gs.flatten = pyWords "aa bb cc" ∧
      (∀ g ∈ gs, g ≠ []) ∧
      (∀ g ∈ gs, 2 ≤ g.length → (joinSp g).length ≤ 5) ∧
      List.Chain' (WR String.length 5) gs ∧
      ∀ u ∈ pyWords "aa bb cc", 5 < u.length → [u] ∈ gs :=
  ⟨⟨len_happ, len_hpre⟩,
    c6_wrap_greedy String.length 5 "aa bb cc" len_happ len_hpre⟩
